import Mathlib

/-!
Shallow embedding of the powerdns-migrator zone reconciliation engine,
HTTP client retry logic, and batch/CLI module surface, together with
theorems settling the specification claims about them.

The embedding follows `powerdns_migrator/async_migrator.py`,
`powerdns_migrator/async_client.py`, `powerdns_migrator/errors.py`,
`powerdns_migrator/cli.py` and `docker/webui/app.py`.  Python dicts used
as ordered maps are modelled as association lists with insertion-order
semantics; Python's implicit I/O (HTTP requests) is modelled by passing
the observed responses in as data and returning the write requests that
would be issued as data.
-/

set_option autoImplicit false

namespace PdnsMigrator

/-! ## String helpers

`pyWords` models Python's `str.split()` (split on whitespace runs, no
empty words); `joinSp` models `" ".join(parts)`.  Both are structural
recursions so that concrete witnesses evaluate in the kernel. -/

/-- Split a character list at whitespace, dropping empty chunks:
the behaviour of Python `str.split()` without arguments. -/
def splitWsAux : List Char → List Char → List (List Char)
  | [], acc => if acc.isEmpty then [] else [acc.reverse]
  | c :: cs, acc =>
    if c.isWhitespace then
      if acc.isEmpty then splitWsAux cs [] else acc.reverse :: splitWsAux cs []
    else splitWsAux cs (c :: acc)

/-- Python `content.split()`: the whitespace-separated words of a string. -/
def pyWords (s : String) : List String :=
  (splitWsAux s.data []).map fun cs => ⟨cs⟩

/-- Python `" ".join(parts)`. -/
def joinSp : List String → String
  | [] => ""
  | [w] => w
  | w :: rest => w ++ " " ++ joinSp rest

/-- `utils.normalize_zone_name`: ensure a zone name ends with a trailing
dot.  Python's `name.endswith(".")` is the test on the last character. -/
def normalize_zone_name (name : String) : String :=
  if name.data.getLast? = some '.' then name else name ++ "."

/-! ## Data model

Records, comments, rrsets and zones as the engine observes them.  Fields
read through `dict.get` in the source are `Option`s; `content` of a
record and `name`/`type` of an rrset are accessed with mandatory `[...]`
indexing in the source and are modelled as always present. -/

structure SRecord where
  content : String
  disabled : Option Bool
  priority : Option Int
deriving DecidableEq

structure SComment where
  content : Option String
  disabled : Option Bool
  account : Option String
  modified_at : Option Int
deriving DecidableEq

structure Rrset where
  name : String
  type : String
  ttl : Option Int
  records : List SRecord
  comments : List SComment
deriving DecidableEq

structure Zone where
  name : String
  kind : Option String
  masters : Option (List String)
  nameservers : Option (List String)
  account : Option String
  soa_edit : Option String
  soa_edit_api : Option String
  rrsets : List Rrset
deriving DecidableEq

/-- A rrset change operation as built by `_rrset_change` (a `comments`
value of `[]` models the key being absent from the payload). -/
structure ChangeOp where
  name : String
  type : String
  changetype : String
  ttl : Int
  records : List SRecord
  comments : List SComment
deriving DecidableEq

/-- The `(normalized name, type)` identity key of a rrset
(`_rrset_key`). -/
def rrsetKey (rr : Rrset) : String × String :=
  (normalize_zone_name rr.name, rr.type)

/-- The `(name, type)` key of an emitted change operation. -/
def opKey (op : ChangeOp) : String × String :=
  (op.name, op.type)

/-! ## Sanitization (`_sanitize_rrsets`, `_sanitize_zone`) -/

/-- The record dict rebuilt by `_sanitize_rrsets`: keeps `content`,
defaults `disabled` to `False`, keeps `priority` when present. -/
def sanitizeRecord (rec : SRecord) : SRecord :=
  { content := rec.content
    disabled := some (rec.disabled.getD false)
    priority := rec.priority }

/-- `_sanitize_rrsets`: rebuild each rrset with normalized name,
defaulted ttl, cleaned records, comments kept when non-empty. -/
def sanitizeRrsets (rrsets : List Rrset) : List Rrset :=
  rrsets.map fun rr =>
    { name := normalize_zone_name rr.name
      type := rr.type
      ttl := some (rr.ttl.getD 3600)
      records := rr.records.map sanitizeRecord
      comments := rr.comments }

/-! ## CNAME conflict policy (`_drop_cname_conflicts`) -/

/-- `rrsets_by_name.setdefault(name, []).append(rrset)`: append to an
existing group, else append a fresh singleton group at the end. -/
def groupInsert (k : String) (rr : Rrset) :
    List (String × List Rrset) → List (String × List Rrset)
  | [] => [(k, [rr])]
  | (k', g) :: rest =>
    if k' = k then (k', g ++ [rr]) :: rest else (k', g) :: groupInsert k rr rest

/-- Group rrsets by normalized name, in first-appearance order. -/
def rrsetsByName (rrsets : List Rrset) : List (String × List Rrset) :=
  rrsets.foldl (fun m rr => groupInsert (normalize_zone_name rr.name) rr m) []

/-- The in-place trimming applied to every multi-record CNAME rrset of a
group when `auto_fix_double_cname_conflicts` is set. -/
def trimDoubleCnames (doubleFix : Bool) (g : List Rrset) : List Rrset :=
  if doubleFix then
    g.map fun rr =>
      if rr.type = "CNAME" ∧ rr.records.length > 1 then
        { rr with records := rr.records.take 1 }
      else rr
  else g

/-- Processing of one name group in `_drop_cname_conflicts`: the group is
first trimmed (the Python code mutates the CNAME rrsets in place), then
either kept whole (no CNAME), stripped of CNAMEs (apex), reduced to its
CNAMEs (mixed non-apex group), or kept whole (all-CNAME group).
Membership tests `rr not in cname_rrsets` compare dicts by value; since
every member of `cname_rrsets` has type `"CNAME"`, they coincide with a
test on the `type` field. -/
def processGroup (doubleFix : Bool) (apex n : String) (g : List Rrset) :
    List Rrset :=
  let g' := trimDoubleCnames doubleFix g
  let cnames := g'.filter fun rr => rr.type = "CNAME"
  if cnames.isEmpty then g'
  else if n = apex then g'.filter fun rr => ¬ rr.type = "CNAME"
  else if cnames.length < g'.length then cnames
  else g'

/-- `_drop_cname_conflicts`. -/
def dropCnameConflicts (doubleFix : Bool) (rrsets : List Rrset)
    (zoneName : String) : List Rrset :=
  let apex := normalize_zone_name zoneName
  (rrsetsByName rrsets).flatMap fun p => processGroup doubleFix apex p.1 p.2

/-- The migrator flags stored by `AsyncZoneMigrator.__init__`. -/
structure MigratorConfig where
  ignore_soa_serial : Bool
  auto_fix_cname_conflicts : Bool
  auto_fix_double_cname_conflicts : Bool

/-- `_sanitize_zone`: whitelist the top-level keys, normalize the name,
default the kind, sanitize the rrsets and apply the CNAME policy when
enabled. -/
def sanitizeZone (cfg : MigratorConfig) (zone : Zone) : Zone :=
  let name := normalize_zone_name zone.name
  let rrsets := sanitizeRrsets zone.rrsets
  { name := name
    kind := some (zone.kind.getD "Native")
    masters := zone.masters
    nameservers := zone.nameservers
    account := zone.account
    soa_edit := zone.soa_edit
    soa_edit_api := zone.soa_edit_api
    rrsets :=
      if cfg.auto_fix_cname_conflicts then
        dropCnameConflicts cfg.auto_fix_double_cname_conflicts rrsets name
      else rrsets }

/-! ## SOA content normalization (`_normalize_soa_content`,
`_normalize_record_content`) -/

/-- `_normalize_soa_content`: split on whitespace; fewer than 7 parts are
returned untouched; otherwise optionally override the serial (index 2)
and rejoin with single spaces. -/
def normalizeSoaContent (content : String) (serialOverride : Option String) :
    String :=
  let parts := pyWords content
  if parts.length < 7 then content
  else
    match serialOverride with
    | some s => joinSp (parts.set 2 s)
    | none => joinSp parts

/-- `_normalize_record_content`: under `ignore_soa_serial`, SOA contents
are canonicalized with serial `"0"`; all other contents are untouched. -/
def normalizeRecordContent (ig : Bool) (rrtype : String) (content : String) :
    String :=
  if ig ∧ rrtype = "SOA" then normalizeSoaContent content (some "0")
  else content

/-! ## Sorting (Python `sorted` over tuples)

Python sorts the normalized record and comment tuples lexicographically.
Any deterministic total-order sort yields the same list on the inputs the
engine compares, so an insertion sort over an explicit comparator stands
in for `sorted`. -/

/-- Insert into a sorted list according to a boolean comparator. -/
def insertLe {α : Type} (le : α → α → Bool) (x : α) : List α → List α
  | [] => [x]
  | y :: ys => if le x y then x :: y :: ys else y :: insertLe le x ys

/-- Insertion sort by a boolean comparator; models Python `sorted`. -/
def sortLe {α : Type} (le : α → α → Bool) : List α → List α
  | [] => []
  | x :: xs => insertLe le x (sortLe le xs)

/-- Normalized record tuple `(normalized_content, disabled, priority)`. -/
abbrev NRec := String × Bool × Option Int

/-- Normalized comment tuple `(content, disabled, account, modified_at)`. -/
abbrev NCom := String × Bool × Option String × Option Int

/-- Total order on optional integers (`none` first). -/
def optIntLe : Option Int → Option Int → Bool
  | none, _ => true
  | some _, none => false
  | some a, some b => a ≤ b

/-- Total order on optional strings (`none` first). -/
def optStrLe : Option String → Option String → Bool
  | none, _ => true
  | some _, none => false
  | some a, some b => decide (a < b) || a == b

/-- `False < True`, as in Python. -/
def boolLe (a b : Bool) : Bool := !a || b

/-- Lexicographic order on normalized record tuples. -/
def nrecLe (a b : NRec) : Bool :=
  decide (a.1 < b.1) ||
    (a.1 == b.1 &&
      ((!a.2.1 && b.2.1) || (a.2.1 == b.2.1 && optIntLe a.2.2 b.2.2)))

/-- Lexicographic order on normalized comment tuples. -/
def ncomLe (a b : NCom) : Bool :=
  decide (a.1 < b.1) ||
    (a.1 == b.1 &&
      ((!a.2.1 && b.2.1) ||
        (a.2.1 == b.2.1 &&
          (decide (optStrLe a.2.2.1 b.2.2.1 = true ∧ a.2.2.1 ≠ b.2.2.1) ||
            (a.2.2.1 == b.2.2.1 && optIntLe a.2.2.2 b.2.2.2)))))

/-- The canonical form computed by `_normalize_rrset`. -/
structure NRrset where
  name : String
  type : String
  ttl : Option Int
  records : List NRec
  comments : List NCom
deriving DecidableEq

/-- `_normalize_rrset`: normalized name, type, raw ttl (no default), and
the sorted normalized record and comment tuples. -/
def normalizeRrset (ig : Bool) (rr : Rrset) : NRrset :=
  { name := normalize_zone_name rr.name
    type := rr.type
    ttl := rr.ttl
    records :=
      sortLe nrecLe (rr.records.map fun rec =>
        (normalizeRecordContent ig rr.type rec.content,
          rec.disabled.getD false, rec.priority))
    comments :=
      sortLe ncomLe (rr.comments.map fun c =>
        (c.content.getD "", c.disabled.getD false, c.account, c.modified_at)) }

/-- `_rrset_equal`: semantic equality through `_normalize_rrset`. -/
def rrsetEqual (ig : Bool) (s t : Rrset) : Bool :=
  decide (normalizeRrset ig s = normalizeRrset ig t)

/-! ## Python dicts keyed by `(name, type)`

`{self._rrset_key(rr): rr for rr in ...}` builds an insertion-ordered map
where later duplicates overwrite in place.  Modelled as an association
list. -/

abbrev RKey := String × String
abbrev RMap := List (RKey × Rrset)

/-- One dict assignment `m[k] = v`: overwrite in place or append. -/
def dictInsert (k : RKey) (v : Rrset) (m : RMap) : RMap :=
  if m.any fun p => p.1 = k then
    m.map fun p => if p.1 = k then (k, v) else p
  else m ++ [(k, v)]

/-- `m.get(k)` / `k in m`. -/
def dictLookup (k : RKey) (m : RMap) : Option Rrset :=
  (m.find? fun p => decide (p.1 = k)).map (·.2)

/-- The dict comprehension `{key(rr): rr for rr in rrsets}`. -/
def rrsetMap (rrsets : List Rrset) : RMap :=
  rrsets.foldl (fun m rr => dictInsert (rrsetKey rr) rr m) []

/-! ## Change emission (`_rrset_change`, `_preserve_target_soa_serial`,
`_build_changes`) -/

/-- `_rrset_change`: the PATCH payload for one rrset. -/
def rrsetChange (changetype : String) (rr : Rrset) : ChangeOp :=
  { name := normalize_zone_name rr.name
    type := rr.type
    changetype := changetype
    ttl := rr.ttl.getD 3600
    records := rr.records
    comments := rr.comments }

/-- `_preserve_target_soa_serial`: rewrite every source record content to
carry the target's serial; returns the source untouched when the target
has no records or its first content has fewer than 7 fields. -/
def preserveTargetSoaSerial (src tgt : Rrset) : Rrset :=
  match tgt.records with
  | [] => src
  | r0 :: _ =>
    let targetParts := pyWords r0.content
    if targetParts.length < 7 then src
    else
      let targetSerial := targetParts.getD 2 ""
      { src with
          records := src.records.map fun rec =>
            { rec with
                content := normalizeSoaContent rec.content (some targetSerial) } }

/-- `_build_changes`: deletes for target-only keys, replaces for common
keys whose rrsets differ semantically (with the SOA serial carried over
when `ignore_soa_serial` is set), replaces for source-only keys — in
that order. -/
def buildChanges (ig : Bool) (sourceZone targetZone : Zone) : List ChangeOp :=
  let smap := rrsetMap sourceZone.rrsets
  let tmap := rrsetMap targetZone.rrsets
  let deletes :=
    (tmap.filter fun p => (dictLookup p.1 smap).isNone).map fun p =>
      rrsetChange "DELETE" p.2
  let updates :=
    smap.filterMap fun p =>
      match dictLookup p.1 tmap with
      | none => none
      | some trr =>
        if rrsetEqual ig p.2 trr then none
        else
          some (rrsetChange "REPLACE"
            (if ig ∧ p.2.type = "SOA" then preserveTargetSoaSerial p.2 trr
             else p.2))
  let creates :=
    (smap.filter fun p => (dictLookup p.1 tmap).isNone).map fun p =>
      rrsetChange "REPLACE" p.2
  deletes ++ updates ++ creates

/-! ## `migrate`

The coroutine's I/O is modelled by passing in the observed responses
(`sourceZone` from `get_zone`, `targetZone` from `zone_exists`,
`createdResp` for whatever `create_zone` would return) and collecting
the write requests the call would issue. -/

/-- The dynamic value of the result's `"changes"` entry: the literal
`{}` in the NOOP/CREATE branches, a list of change operations
otherwise. -/
inductive ChangesField where
  | emptyMap : ChangesField
  | ops : List ChangeOp → ChangesField
deriving DecidableEq

/-- A write request issued against the target client. -/
inductive WriteOp where
  | deleteZone : String → WriteOp
  | createZone : Zone → WriteOp
  | patchZoneRrsets : String → List ChangeOp → WriteOp
deriving DecidableEq

/-- The dictionary returned by `migrate` (`target_zone := none` models
the literal `{}`). -/
structure MigrateResult where
  source_zone : Zone
  target_zone : Option Zone
  changes : ChangesField
  migrator_action : String
deriving DecidableEq

/-- `AsyncZoneMigrator.migrate`, as a pure function from the observed
API responses to the returned result and the list of issued writes. -/
def migrate (cfg : MigratorConfig) (zoneName : String)
    (recreate dryRun : Bool) (sourceZone : Zone) (targetZone : Option Zone)
    (createdResp : Zone) : MigrateResult × List WriteOp :=
  let zone := normalize_zone_name zoneName
  let sanitized := sanitizeZone cfg sourceZone
  match targetZone with
  | some tz =>
    let changes := buildChanges cfg.ignore_soa_serial sanitized tz
    if changes.isEmpty then
      ({ source_zone := sanitized
         target_zone := if dryRun then none else some tz
         changes := ChangesField.emptyMap
         migrator_action := "NOOP" }, [])
    else if recreate then
      ({ source_zone := sanitized
         target_zone := if dryRun then none else some createdResp
         changes := ChangesField.ops changes
         migrator_action := "RECREATE_ZONE" },
       if dryRun then []
       else [WriteOp.deleteZone zone, WriteOp.createZone sanitized])
    else
      ({ source_zone := sanitized
         target_zone := none
         changes := ChangesField.ops changes
         migrator_action := "PATCH_ZONE" },
       if dryRun then [] else [WriteOp.patchZoneRrsets zone changes])
  | none =>
    ({ source_zone := sanitized
       target_zone := if dryRun then none else some createdResp
       changes := ChangesField.emptyMap
       migrator_action := "CREATE_ZONE" },
     if dryRun then [] else [WriteOp.createZone sanitized])

/-! ## HTTP client retry loop (`async_client.py`)

One attempt either fails at the transport level (`aiohttp.ClientError` /
`asyncio.TimeoutError`) or yields a response status.  The loop of
`_request_json` / `_request_ok` is a recursion over the remaining
retries (`remaining = retries - attempt`). -/

/-- The observable outcome of one HTTP attempt. -/
inductive Attempt where
  | transportErr : Attempt
  | resp : Nat → Attempt
deriving DecidableEq

/-- How a logical client call ends.  `connErr` records whether the
carried `cause` is the transport exception of the last attempt; the code
only ever reaches the `PowerDNSConnectionError` raise through the
transport-exception handler, so this is always `true`. -/
inductive ReqOutcome where
  | success : ReqOutcome
  | apiError : Nat → ReqOutcome
  | connErr : Bool → ReqOutcome
deriving DecidableEq

/-- `_should_retry_status`. -/
def shouldRetryStatus (s : Nat) : Bool :=
  s == 408 || s == 429 || s == 500 || s == 502 || s == 503 || s == 504

/-- The retry loop body from attempt index `a` with `remaining`
further attempts allowed (`attempt < retries` iff `remaining > 0`).
Returns the total number of attempts made and the outcome. -/
def runReqAux (outcomes : Nat → Attempt) : Nat → Nat → Nat × ReqOutcome
  | a, 0 =>
    match outcomes a with
    | Attempt.transportErr => (a + 1, ReqOutcome.connErr true)
    | Attempt.resp s =>
      if 400 ≤ s then (a + 1, ReqOutcome.apiError s)
      else (a + 1, ReqOutcome.success)
  | a, remaining + 1 =>
    match outcomes a with
    | Attempt.transportErr => runReqAux outcomes (a + 1) remaining
    | Attempt.resp s =>
      if shouldRetryStatus s then runReqAux outcomes (a + 1) remaining
      else if 400 ≤ s then (a + 1, ReqOutcome.apiError s)
      else (a + 1, ReqOutcome.success)

/-- A whole logical call: `for attempt in range(retries + 1)`. -/
def runReq (outcomes : Nat → Attempt) (retries : Nat) : Nat × ReqOutcome :=
  runReqAux outcomes 0 retries

/-- `_retry_delay`: exponential backoff capped at `retry_max_backoff`,
plus a uniform jitter sample when `retry_jitter > 0`, overridden by a
numeric `Retry-After` header when larger. -/
def retryDelay (maxBackoff backoff jitter : ℚ) (attempt : Nat)
    (jitterSample : ℚ) (retryAfter : Option Nat) : ℚ :=
  let d := min maxBackoff (backoff * 2 ^ attempt)
  let d := if 0 < jitter then d + jitterSample else d
  match retryAfter with
  | some ra => max d (ra : ℚ)
  | none => d

/-- The clamping `max(0, retries)` in `AsyncPowerDNSClient.__init__`. -/
def clampRetries (retries : Int) : Int := max 0 retries

/-- The clamping `max(0.0, x)` applied to the backoff parameters in
`AsyncPowerDNSClient.__init__`. -/
def clampParam (x : ℚ) : ℚ := max 0 x

/-! ## Module surfaces (`errors.py`, `cli.py`, `async_migrator.py`,
`docker/webui/app.py`)

Name-level facts needed by the claims about error handling and the
`normalize_txt_escapes` option. -/

/-- The exception classes defined by `powerdns_migrator/errors.py`. -/
def errorsModuleClasses : List String :=
  ["PowerDNSMigratorError", "PowerDNSAPIError", "PowerDNSConnectionError",
    "MigratorConfigError"]

/-- The names `powerdns_migrator/cli.py` imports from `.errors`
(line 13). -/
def cliErrorsImports : List String :=
  ["MigrationError", "PowerDNSAPIError"]

/-- The exception classes named by the `except` clause guarding
`migrator.migrate` in the batch `worker` (cli.py line 217). -/
def cliWorkerExceptClasses : List String :=
  ["PowerDNSAPIError", "MigrationError"]

/-- The parameters accepted by `AsyncZoneMigrator.__init__`. -/
def migratorInitParams : List String :=
  ["source", "target", "timeout", "retries", "retry_backoff",
    "retry_max_backoff", "retry_jitter", "ignore_soa_serial",
    "auto_fix_cname_conflicts", "auto_fix_double_cname_conflicts"]

/-- The keyword arguments `docker/webui/app.py` passes to
`AsyncZoneMigrator` in `api_migrate` (lines 206-217). -/
def webuiMigrateKwargs : List String :=
  ["source", "target", "timeout", "retries", "retry_backoff",
    "retry_max_backoff", "retry_jitter", "ignore_soa_serial",
    "auto_fix_cname_conflicts", "normalize_txt_escapes"]

/-- Two well-formed SOA contents that differ only in the serial field:
at least 7 whitespace-separated fields each (the spec's data model makes
an SOA content a space-separated 7-tuple) and identical once the serial
(index 2) is overwritten. -/
abbrev serialOnlyDiff (a b : String) : Prop :=
  7 ≤ (pyWords a).length ∧ 7 ≤ (pyWords b).length ∧
    (pyWords a).set 2 "0" = (pyWords b).set 2 "0"

/-! ## Concrete fixtures used by witnesses -/

/-- A concrete enabled record with the given content. -/
def wRec (c : String) : SRecord :=
  { content := c, disabled := some false, priority := none }

/-- An `A` rrset at the apex, used by the concrete witnesses. -/
def wRrA : Rrset :=
  { name := "ex.com"
    type := "A"
    ttl := some 300
    records := [wRec "1.1.1.1"]
    comments := [] }

/-- A `TXT` rrset at the apex, used by the concrete witnesses. -/
def wRrTxt : Rrset :=
  { name := "ex.com."
    type := "TXT"
    ttl := some 300
    records := [wRec "\x22old\x22"]
    comments := [] }

/-- A source zone holding only `wRrA`. -/
def wZoneS : Zone :=
  { name := "ex.com"
    kind := none
    masters := none
    nameservers := none
    account := none
    soa_edit := none
    soa_edit_api := none
    rrsets := [wRrA] }

/-- A target zone holding `wRrA` (sanitized form) and `wRrTxt`. -/
def wZoneT : Zone :=
  { name := "ex.com."
    kind := some "Native"
    masters := none
    nameservers := none
    account := none
    soa_edit := none
    soa_edit_api := none
    rrsets := [{ wRrA with name := "ex.com." }, wRrTxt] }

/-- An apex CNAME rrset (invalid at the apex), for the CNAME-policy
witness. -/
def wApexCname : Rrset :=
  { name := "ex.com."
    type := "CNAME"
    ttl := some 300
    records := [wRec "other.example."]
    comments := [] }

/-- A CNAME rrset at `www`, for the CNAME-policy witness. -/
def wWwwCname : Rrset :=
  { name := "www.ex.com."
    type := "CNAME"
    ttl := some 300
    records := [wRec "ex.com.", wRec "other.ex.com."]
    comments := [] }

/-- An `A` rrset at `www` conflicting with `wWwwCname`. -/
def wWwwA : Rrset :=
  { name := "www.ex.com"
    type := "A"
    ttl := some 300
    records := [wRec "2.2.2.2"]
    comments := [] }

/-- A zone with both an apex CNAME conflict and a `www` CNAME conflict. -/
def wCnZone : Zone :=
  { name := "ex.com"
    kind := some "Master"
    masters := none
    nameservers := none
    account := none
    soa_edit := none
    soa_edit_api := none
    rrsets := [wRrA, wApexCname, wWwwCname, wWwwA] }

/-- A well-formed source SOA content. -/
def wSoaContentS : String :=
  "a.ex.com. hostmaster.ex.com. 2024010101 10800 3600 604800 3600"

/-- The same SOA content with a different serial (target side). -/
def wSoaContentT : String :=
  "a.ex.com. hostmaster.ex.com. 2023999999 10800 3600 604800 3600"

/-- A well-formed SOA rrset (source side). -/
def wSoaS : Rrset :=
  { name := "ex.com."
    type := "SOA"
    ttl := some 3600
    records := [wRec wSoaContentS]
    comments := [] }

/-- The same SOA rrset on the target, differing only in the serial. -/
def wSoaT : Rrset :=
  { wSoaS with records := [wRec wSoaContentT] }

/-! ## Helper lemmas -/

/-- Every run of the retry loop makes at least one attempt beyond the
starting index. -/
theorem runReqAux_fst_lb (o : Nat → Attempt) :
    ∀ remaining a, a + 1 ≤ (runReqAux o a remaining).1 := by
  intro remaining
  induction remaining with
  | zero =>
    intro a
    unfold runReqAux
    cases o a with
    | transportErr => simp
    | resp s => dsimp only; split <;> simp
  | succ r ih =>
    intro a
    unfold runReqAux
    cases o a with
    | transportErr => exact le_trans (by omega) (ih (a + 1))
    | resp s =>
      dsimp only
      split
      · exact le_trans (by omega) (ih (a + 1))
      · split <;> simp

/-- The retry loop makes at most one attempt per unit of remaining
budget, plus the current one. -/
theorem runReqAux_fst_ub (o : Nat → Attempt) :
    ∀ remaining a, (runReqAux o a remaining).1 ≤ a + remaining + 1 := by
  intro remaining
  induction remaining with
  | zero =>
    intro a
    unfold runReqAux
    cases o a with
    | transportErr => simp
    | resp s => dsimp only; split <;> simp
  | succ r ih =>
    intro a
    unfold runReqAux
    cases o a with
    | transportErr => exact le_trans (ih (a + 1)) (by omega)
    | resp s =>
      dsimp only
      split
      · exact le_trans (ih (a + 1)) (by omega)
      · split <;> simp

/-- A connection error can only arise from a transport failure on the
last attempt made, and always carries its transport cause. -/
theorem runReqAux_connErr_sound (o : Nat → Attempt) :
    ∀ remaining a b, (runReqAux o a remaining).2 = ReqOutcome.connErr b →
      b = true ∧ o ((runReqAux o a remaining).1 - 1) = Attempt.transportErr := by
  intro remaining
  induction remaining with
  | zero =>
    intro a b h
    cases ho : o a with
    | transportErr =>
      unfold runReqAux at h ⊢
      simp_all
    | resp s =>
      unfold runReqAux at h
      rw [ho] at h
      dsimp only at h
      split at h <;> simp at h
  | succ r ih =>
    intro a b h
    cases ho : o a with
    | transportErr =>
      unfold runReqAux at h ⊢
      rw [ho] at h ⊢
      exact ih (a + 1) b h
    | resp s =>
      unfold runReqAux at h ⊢
      rw [ho] at h ⊢
      dsimp only at h ⊢
      split at h
      · rename_i hretry
        rw [if_pos hretry]
        exact ih (a + 1) b h
      · split at h <;> simp at h

/-- An API error can only arise from a `≥ 400` response on the last
attempt made, which was either non-retryable or the final allowed
attempt. -/
theorem runReqAux_apiError_sound (o : Nat → Attempt) :
    ∀ remaining a s, (runReqAux o a remaining).2 = ReqOutcome.apiError s →
      400 ≤ s ∧ o ((runReqAux o a remaining).1 - 1) = Attempt.resp s
      ∧ (shouldRetryStatus s = false
          ∨ (runReqAux o a remaining).1 = a + remaining + 1) := by
  intro remaining
  induction remaining with
  | zero =>
    intro a s h
    cases ho : o a with
    | transportErr =>
      unfold runReqAux at h
      rw [ho] at h
      simp at h
    | resp s' =>
      unfold runReqAux at h ⊢
      rw [ho] at h ⊢
      dsimp only at h ⊢
      split at h
      · rename_i h4
        simp only [Prod.snd] at h
        cases h
        simp_all
      · simp at h
  | succ r ih =>
    intro a s h
    cases ho : o a with
    | transportErr =>
      unfold runReqAux at h ⊢
      rw [ho] at h ⊢
      dsimp only at h ⊢
      have := ih (a + 1) s h
      refine ⟨this.1, this.2.1, ?_⟩
      rcases this.2.2 with hl | hr
      · exact Or.inl hl
      · exact Or.inr (by omega)
    | resp s' =>
      unfold runReqAux at h ⊢
      rw [ho] at h ⊢
      dsimp only at h ⊢
      split at h
      · rename_i hretry
        rw [if_pos hretry]
        have := ih (a + 1) s h
        refine ⟨this.1, this.2.1, ?_⟩
        rcases this.2.2 with hl | hr
        · exact Or.inl hl
        · exact Or.inr (by omega)
      · rename_i hretry
        rw [if_neg hretry]
        split at h
        · rename_i h4
          simp only [Prod.snd] at h
          cases h
          simp_all
        · simp at h

/-- A non-retryable failure response ends the call at once. -/
theorem runReqAux_immediate (o : Nat → Attempt) (remaining a s : Nat)
    (h : o a = Attempt.resp s) (hnr : shouldRetryStatus s = false)
    (h4 : 400 ≤ s) :
    runReqAux o a remaining = (a + 1, ReqOutcome.apiError s) := by
  cases remaining <;> unfold runReqAux <;> rw [h] <;> simp [hnr, h4]

/-- When every attempt fails at the transport level, the loop uses its
whole budget and ends in a connection error carrying the last cause. -/
theorem runReqAux_all_transport (o : Nat → Attempt)
    (hall : ∀ k, o k = Attempt.transportErr) :
    ∀ remaining a,
      runReqAux o a remaining = (a + remaining + 1, ReqOutcome.connErr true) := by
  intro remaining
  induction remaining with
  | zero => intro a; unfold runReqAux; rw [hall a]
  | succ r ih =>
    intro a
    unfold runReqAux
    rw [hall a]
    dsimp only
    rw [ih (a + 1)]
    simp only [Prod.mk.injEq]
    exact ⟨by omega, trivial⟩

end PdnsMigrator

namespace PdnsMigrator

/-! ## Claim theorems -/

/-- **C5.** A logical client call makes at most `retries + 1` HTTP
attempts; exhausting all attempts on transport failures raises a
connection error (carrying the transport cause — never an API error);
an API error arises exactly from a `≥ 400` response that was
non-retryable or occurred on the final allowed attempt (so a connection
error is never produced by a response, nor an API error by a transport
failure — neither is wrapped in the other); and a non-retryable
4xx/5xx on the first attempt raises immediately. -/
theorem client_retry_contract (retries : Nat) (outcomes : Nat → Attempt) :
    (runReq outcomes retries).1 ≤ retries + 1
    ∧ ((∀ k, outcomes k = Attempt.transportErr) →
        runReq outcomes retries = (retries + 1, ReqOutcome.connErr true))
    ∧ (∀ b, (runReq outcomes retries).2 = ReqOutcome.connErr b →
        b = true
        ∧ outcomes ((runReq outcomes retries).1 - 1) = Attempt.transportErr)
    ∧ (∀ s, (runReq outcomes retries).2 = ReqOutcome.apiError s →
        400 ≤ s ∧ outcomes ((runReq outcomes retries).1 - 1) = Attempt.resp s
        ∧ (shouldRetryStatus s = false
            ∨ (runReq outcomes retries).1 = retries + 1))
    ∧ ∀ s, outcomes 0 = Attempt.resp s → shouldRetryStatus s = false →
        400 ≤ s → runReq outcomes retries = (1, ReqOutcome.apiError s) := by
  refine ⟨?_, ?_, ?_, ?_, ?_⟩
  · simpa using runReqAux_fst_ub outcomes retries 0
  · intro hall
    simpa using runReqAux_all_transport outcomes hall retries 0
  · intro b h
    exact runReqAux_connErr_sound outcomes retries 0 b h
  · intro s h
    have := runReqAux_apiError_sound outcomes retries 0 s h
    refine ⟨this.1, this.2.1, ?_⟩
    rcases this.2.2 with hl | hr
    · exact Or.inl hl
    · exact Or.inr (by simpa using hr)
  · intro s h hnr h4
    simpa using runReqAux_immediate outcomes retries 0 s h hnr h4

/-- Witness for C5: with `retries = 2` and every attempt failing at the
transport level, exactly 3 attempts are made and the call ends in a
connection error; with a constant 404 response, the call ends after one
attempt in an API error. -/
theorem client_retry_contract_witness :
    (runReq (fun _ => Attempt.transportErr) 2).1 ≤ 3
    ∧ runReq (fun _ => Attempt.transportErr) 2 = (3, ReqOutcome.connErr true)
    ∧ runReq (fun _ => Attempt.resp 404) 5 = (1, ReqOutcome.apiError 404) :=
  ⟨(client_retry_contract 2 (fun _ => Attempt.transportErr)).1,
    (client_retry_contract 2 (fun _ => Attempt.transportErr)).2.1
      (fun _ => rfl),
    (client_retry_contract 5 (fun _ => Attempt.resp 404)).2.2.2.2 404 rfl
      (by decide) (by decide)⟩

/-- **C6.** For every attempt index `a`, the computed delay before the
next attempt equals `min(max_backoff, backoff * 2^a)` plus the jitter
sample drawn uniformly from `[0, jitter]`, hence is at most
`max_backoff + jitter`; and when a numeric `Retry-After` header exceeds
the computed delay, the header value is used instead. -/
theorem retry_delay_spec (maxBackoff backoff jitter s : ℚ) (a : Nat)
    (h0 : 0 ≤ s) (hs : s ≤ jitter) :
    retryDelay maxBackoff backoff jitter a s none
        = min maxBackoff (backoff * 2 ^ a) + s
    ∧ retryDelay maxBackoff backoff jitter a s none ≤ maxBackoff + jitter
    ∧ ∀ ra : Nat, retryDelay maxBackoff backoff jitter a s none < (ra : ℚ) →
        retryDelay maxBackoff backoff jitter a s (some ra) = (ra : ℚ) := by
  have hj : 0 ≤ jitter := le_trans h0 hs
  have key : retryDelay maxBackoff backoff jitter a s none
      = min maxBackoff (backoff * 2 ^ a) + s := by
    unfold retryDelay
    rcases eq_or_lt_of_le hj with h | h
    · have hs0 : s = 0 := le_antisymm (hs.trans h.symm.le) h0
      simp [← h, hs0]
    · simp [h]
  refine ⟨key, ?_, ?_⟩
  · rw [key]
    exact add_le_add (min_le_left _ _) hs
  · intro ra hlt
    have hd : retryDelay maxBackoff backoff jitter a s (some ra)
        = max (retryDelay maxBackoff backoff jitter a s none) (ra : ℚ) := rfl
    rw [hd, max_eq_right hlt.le]

/-- Witness for C6 at `max_backoff = 5`, `backoff = 1`, `jitter = 2`,
jitter sample `1`, attempt index `3`. -/
theorem retry_delay_spec_witness :
    retryDelay 5 1 2 3 1 none = min 5 (1 * 2 ^ 3) + 1
    ∧ retryDelay 5 1 2 3 1 none ≤ 5 + 2
    ∧ ∀ ra : Nat, retryDelay 5 1 2 3 1 none < (ra : ℚ) →
        retryDelay 5 1 2 3 1 (some ra) = (ra : ℚ) :=
  retry_delay_spec 5 1 2 1 3 (by decide) (by decide)

/-- **C10.** The stored retry parameters are clamped to be nonnegative,
so every logical call makes at least one HTTP attempt and every computed
retry delay is nonnegative. -/
theorem client_params_clamped (retries : Int) (b mb j : ℚ) :
    0 ≤ clampRetries retries
    ∧ 0 ≤ clampParam b ∧ 0 ≤ clampParam mb ∧ 0 ≤ clampParam j
    ∧ (∀ outcomes : Nat → Attempt,
        1 ≤ (runReq outcomes (clampRetries retries).toNat).1)
    ∧ ∀ (a : Nat) (s : ℚ) (ra : Option Nat), 0 ≤ s → s ≤ clampParam j →
        0 ≤ retryDelay (clampParam mb) (clampParam b) (clampParam j) a s ra := by
  refine ⟨le_max_left 0 retries, le_max_left 0 b, le_max_left 0 mb,
    le_max_left 0 j, ?_, ?_⟩
  · intro outcomes
    exact runReqAux_fst_lb outcomes _ 0
  · intro a s ra h0 _
    have hmin : 0 ≤ min (clampParam mb) (clampParam b * 2 ^ a) :=
      le_min (le_max_left 0 mb)
        (mul_nonneg (le_max_left 0 b) (pow_nonneg (by norm_num) a))
    have hd : 0 ≤ (if 0 < clampParam j then
        min (clampParam mb) (clampParam b * 2 ^ a) + s
      else min (clampParam mb) (clampParam b * 2 ^ a)) := by
      split
      · exact add_nonneg hmin h0
      · exact hmin
    cases ra with
    | none => exact hd
    | some n =>
      calc (0 : ℚ) ≤ _ := hd
        _ ≤ _ := le_max_left _ _

/-- Witness for C10 at `retries = -2`, `backoff = -1`, `max_backoff = 4`,
`jitter = 3`, with jitter sample `1` at attempt `2`. -/
theorem client_params_clamped_witness :
    0 ≤ clampRetries (-2)
    ∧ 0 ≤ clampParam (-1) ∧ 0 ≤ clampParam 4 ∧ 0 ≤ clampParam 3
    ∧ (∀ outcomes : Nat → Attempt,
        1 ≤ (runReq outcomes (clampRetries (-2)).toNat).1)
    ∧ ∀ (a : Nat) (s : ℚ) (ra : Option Nat), 0 ≤ s → s ≤ clampParam 3 →
        0 ≤ retryDelay (clampParam 4) (clampParam (-1)) (clampParam 3) a s ra :=
  client_params_clamped (-2) (-1) 4 3

/-- **C8.** With `dry_run = true`, `migrate` issues no write requests and
still returns the same `migrator_action`, the same sanitized source zone
and the same change set as the non-dry-run invocation. -/
theorem migrate_dry_run_frame (cfg : MigratorConfig) (zoneName : String)
    (recreate : Bool) (sourceZone : Zone) (targetZone : Option Zone)
    (createdResp : Zone) :
    (migrate cfg zoneName recreate true sourceZone targetZone createdResp).2 = []
    ∧ (migrate cfg zoneName recreate true sourceZone targetZone
          createdResp).1.migrator_action
        = (migrate cfg zoneName recreate false sourceZone targetZone
          createdResp).1.migrator_action
    ∧ (migrate cfg zoneName recreate true sourceZone targetZone
          createdResp).1.source_zone
        = (migrate cfg zoneName recreate false sourceZone targetZone
          createdResp).1.source_zone
    ∧ (migrate cfg zoneName recreate true sourceZone targetZone
          createdResp).1.changes
        = (migrate cfg zoneName recreate false sourceZone targetZone
          createdResp).1.changes := by
  cases targetZone with
  | none => simp [migrate]
  | some tz =>
    by_cases h : (buildChanges cfg.ignore_soa_serial
        (sanitizeZone cfg sourceZone) tz).isEmpty
    <;> by_cases hr : recreate
    <;> simp [migrate, h, hr]

/-- **C9.** A `migrate` result with action `NOOP` or `CREATE_ZONE`
carries the empty-mapping `changes` value; a result with action
`PATCH_ZONE` or `RECREATE_ZONE` carries a non-empty list of change
operations. -/
theorem migrate_changes_field_shape (cfg : MigratorConfig)
    (zoneName : String) (recreate dryRun : Bool) (sourceZone : Zone)
    (targetZone : Option Zone) (createdResp : Zone) :
    ((migrate cfg zoneName recreate dryRun sourceZone targetZone
          createdResp).1.migrator_action = "NOOP"
      ∨ (migrate cfg zoneName recreate dryRun sourceZone targetZone
          createdResp).1.migrator_action = "CREATE_ZONE" →
      (migrate cfg zoneName recreate dryRun sourceZone targetZone
          createdResp).1.changes = ChangesField.emptyMap)
    ∧ ((migrate cfg zoneName recreate dryRun sourceZone targetZone
          createdResp).1.migrator_action = "PATCH_ZONE"
      ∨ (migrate cfg zoneName recreate dryRun sourceZone targetZone
          createdResp).1.migrator_action = "RECREATE_ZONE" →
      ∃ l, l ≠ [] ∧ (migrate cfg zoneName recreate dryRun sourceZone
          targetZone createdResp).1.changes = ChangesField.ops l) := by
  cases targetZone with
  | none =>
    refine ⟨fun _ => by simp [migrate], fun h => ?_⟩
    rcases h with h | h <;> simp [migrate] at h
  | some tz =>
    by_cases h : (buildChanges cfg.ignore_soa_serial
        (sanitizeZone cfg sourceZone) tz).isEmpty
    · refine ⟨fun _ => by simp [migrate, h], fun hc => ?_⟩
      rcases hc with hc | hc <;> simp [migrate, h] at hc
    · by_cases hr : recreate
      · refine ⟨fun hc => ?_, fun _ => ?_⟩
        · rcases hc with hc | hc <;> simp [migrate, h, hr] at hc
        · exact ⟨_, by simpa [List.isEmpty_iff] using h, by simp [migrate, h, hr]⟩
      · refine ⟨fun hc => ?_, fun _ => ?_⟩
        · rcases hc with hc | hc <;> simp [migrate, h, hr] at hc
        · exact ⟨_, by simpa [List.isEmpty_iff] using h, by simp [migrate, h, hr]⟩

/-- Witness for C9: a concrete patch run (target has an extra TXT rrset)
yields action `PATCH_ZONE` with a non-empty change list, and the
`NOOP`/`CREATE_ZONE` implication is discharged on a concrete NOOP run. -/
theorem migrate_changes_field_shape_witness :
    (∃ l, l ≠ [] ∧ (migrate ⟨false, false, false⟩ "ex.com" false false
        wZoneS (some wZoneT) wZoneS).1.changes = ChangesField.ops l)
    ∧ (migrate ⟨false, false, false⟩ "ex.com" false false
        wZoneS (some (sanitizeZone ⟨false, false, false⟩ wZoneS))
        wZoneS).1.changes = ChangesField.emptyMap :=
  ⟨(migrate_changes_field_shape ⟨false, false, false⟩ "ex.com" false false
      wZoneS (some wZoneT) wZoneS).2 (Or.inl (by decide)),
    (migrate_changes_field_shape ⟨false, false, false⟩ "ex.com" false false
      wZoneS (some (sanitizeZone ⟨false, false, false⟩ wZoneS)) wZoneS).1
      (Or.inl (by decide))⟩

/-- **C4.** The batch worker's `except` clause in `cli.py` names
`MigrationError`, imported from `powerdns_migrator.errors` — but that
module defines no such class (only `PowerDNSMigratorError`,
`PowerDNSAPIError`, `PowerDNSConnectionError`, `MigratorConfigError`),
so the import fails and, even as written, neither
`PowerDNSConnectionError` nor any other non-API error is named by the
worker's handler.  This contradicts the claim that every per-zone
failure (API, connection, or other) is caught at the worker boundary. -/
theorem cli_worker_catch_is_broken :
    "MigrationError" ∈ cliErrorsImports
    ∧ "MigrationError" ∈ cliWorkerExceptClasses
    ∧ "MigrationError" ∉ errorsModuleClasses
    ∧ "PowerDNSConnectionError" ∉ cliWorkerExceptClasses := by
  decide

/-- **C7.** The repository's own callers (the web UI's `api_migrate`)
pass `normalize_txt_escapes` to `AsyncZoneMigrator`, but the engine's
constructor accepts no such parameter, and sanitization leaves every
record content — TXT included — byte-identical.  This contradicts the
claim that the engine recognizes the option and canonicalizes TXT escape
forms. -/
theorem normalize_txt_escapes_unsupported :
    "normalize_txt_escapes" ∈ webuiMigrateKwargs
    ∧ "normalize_txt_escapes" ∉ migratorInitParams
    ∧ ∀ rrsets : List Rrset,
        (sanitizeRrsets rrsets).map (fun rr => rr.records.map (·.content))
          = rrsets.map fun rr => rr.records.map (·.content) := by
  refine ⟨by decide, by decide, ?_⟩
  intro rrsets
  simp [sanitizeRrsets, sanitizeRecord, List.map_map, Function.comp]

/-- A function constant on a relation maps `Forall₂`-related lists to
equal lists. -/
theorem forall₂_map_eq {α β : Type} (f : α → β) (R : α → α → Prop)
    (hf : ∀ a b, R a b → f a = f b) :
    ∀ l₁ l₂, List.Forall₂ R l₁ l₂ → l₁.map f = l₂.map f := by
  intro l₁ l₂ h
  induction h with
  | nil => rfl
  | cons hab _ ih => simp [hf _ _ hab, ih]

/-- A list is `Forall₂`-related to its image under a map whenever the
relation holds pointwise. -/
theorem forall₂_map_self {α β : Type} (f : α → β) (R : α → β → Prop)
    (l : List α) (h : ∀ a ∈ l, R a (f a)) : List.Forall₂ R l (l.map f) := by
  induction l with
  | nil => simp
  | cons x xs ih =>
    simp only [List.map_cons]
    exact List.Forall₂.cons (h x (by simp)) (ih fun a ha => h a (by simp [ha]))

/-- Overriding the serial of a well-formed SOA content rejoins the words
with the serial replaced. -/
theorem normalizeSoaContent_override (c s : String)
    (h7 : 7 ≤ (pyWords c).length) :
    normalizeSoaContent c (some s) = joinSp ((pyWords c).set 2 s) := by
  simp only [normalizeSoaContent]
  rw [if_neg (by omega)]

/-- Under `ignore_soa_serial`, SOA content normalization is serial
override by `"0"`. -/
theorem normalizeRecordContent_SOA (c : String) :
    normalizeRecordContent true "SOA" c = normalizeSoaContent c (some "0") := by
  simp [normalizeRecordContent]

/-- Normalization of well-formed SOA contents that differ only in the
serial yields the same string. -/
theorem normalizeRecordContent_serialOnlyDiff (a b : String)
    (h : serialOnlyDiff a b) :
    normalizeRecordContent true "SOA" a = normalizeRecordContent true "SOA" b := by
  obtain ⟨h7a, h7b, hset⟩ := h
  rw [normalizeRecordContent_SOA, normalizeRecordContent_SOA,
    normalizeSoaContent_override a "0" h7a,
    normalizeSoaContent_override b "0" h7b, hset]

/-- **C3.** Under `ignore_soa_serial`: two SOA contents differing only in
the serial field normalize identically; an SOA rrset pair whose records
differ only in their serials (same name, ttl, comments, disabled and
priority flags) is semantically equal, so the diff emits no REPLACE for
it; and when a REPLACE is emitted, `_preserve_target_soa_serial` rewrites
every source record content to carry the target's current serial
(field index 2 of the target's first record) while leaving every other
field of the records unchanged. -/
theorem soa_serial_ignore_spec (sc tc : String) (src tgt : Rrset)
    (r0 : SRecord) (rest : List SRecord)
    (hct : serialOnlyDiff sc tc)
    (hstype : src.type = "SOA") (httype : tgt.type = "SOA")
    (hname : normalize_zone_name src.name = normalize_zone_name tgt.name)
    (httl : src.ttl = tgt.ttl) (hcom : src.comments = tgt.comments)
    (hrecs : List.Forall₂ (fun a b : SRecord =>
        serialOnlyDiff a.content b.content ∧ a.disabled = b.disabled
          ∧ a.priority = b.priority) src.records tgt.records)
    (htr : tgt.records = r0 :: rest)
    (h7r0 : 7 ≤ (pyWords r0.content).length)
    (h7src : ∀ rec ∈ src.records, 7 ≤ (pyWords rec.content).length) :
    normalizeRecordContent true "SOA" sc = normalizeRecordContent true "SOA" tc
    ∧ rrsetEqual true src tgt = true
    ∧ List.Forall₂ (fun a b : SRecord =>
        b.content = joinSp ((pyWords a.content).set 2
          ((pyWords r0.content).getD 2 ""))
        ∧ b.disabled = a.disabled ∧ b.priority = a.priority)
      src.records (preserveTargetSoaSerial src tgt).records := by
  refine ⟨normalizeRecordContent_serialOnlyDiff sc tc hct, ?_, ?_⟩
  · simp only [rrsetEqual, decide_eq_true_eq]
    have hmap : src.records.map (fun rec =>
          ((normalizeRecordContent true "SOA" rec.content : String),
            rec.disabled.getD false, rec.priority))
        = tgt.records.map fun rec =>
          ((normalizeRecordContent true "SOA" rec.content : String),
            rec.disabled.getD false, rec.priority) :=
      forall₂_map_eq _ _
        (fun a b hab => by
          simp only [Prod.mk.injEq]
          exact ⟨normalizeRecordContent_serialOnlyDiff _ _ hab.1,
            by rw [hab.2.1], hab.2.2⟩)
        src.records tgt.records hrecs
    simp only [normalizeRrset, hname, hstype, httype, httl, hcom, hmap]
  · have hpres : preserveTargetSoaSerial src tgt
        = { src with records := src.records.map fun rec =>
            { rec with content := normalizeSoaContent rec.content (some ((pyWords r0.content).getD 2 "")) } } := by
      simp only [preserveTargetSoaSerial, htr]
      rw [if_neg (by omega)]
    rw [hpres]
    refine forall₂_map_self _ _ src.records fun a ha => ?_
    refine ⟨?_, rfl, rfl⟩
    exact normalizeSoaContent_override _ _ (h7src a ha)

/-- Witness for C4: the class the worker's handler relies on is indeed
imported by `cli.py` yet absent from `errors.py`. -/
theorem cli_worker_catch_is_broken_witness :
    "MigrationError" ∈ cliErrorsImports
    ∧ "MigrationError" ∉ errorsModuleClasses :=
  ⟨cli_worker_catch_is_broken.1, cli_worker_catch_is_broken.2.2.1⟩

/-- Witness for C7: sanitization leaves a concrete TXT rrset's contents
byte-identical. -/
theorem normalize_txt_escapes_unsupported_witness :
    (sanitizeRrsets [wRrTxt]).map (fun rr => rr.records.map (·.content))
      = [wRrTxt].map fun rr => rr.records.map (·.content) :=
  normalize_txt_escapes_unsupported.2.2 [wRrTxt]

/-- Zone-name normalization is idempotent. -/
theorem normalize_zone_name_idem (s : String) :
    normalize_zone_name (normalize_zone_name s) = normalize_zone_name s := by
  unfold normalize_zone_name
  split
  · rfl
  · rw [if_pos]
    rw [String.data_append, List.getLast?_append]
    rfl

/-- The keys of `groupInsert`: unchanged when the key is present, the key
appended otherwise. -/
theorem groupInsert_keys (k : String) (rr : Rrset) :
    ∀ m : List (String × List Rrset),
      (groupInsert k rr m).map Prod.fst
        = if k ∈ m.map Prod.fst then m.map Prod.fst
          else m.map Prod.fst ++ [k] := by
  intro m
  induction m with
  | nil => simp [groupInsert]
  | cons p rest ih =>
    obtain ⟨k', g⟩ := p
    by_cases h : k' = k
    · simp [groupInsert, h]
    · simp only [groupInsert, if_neg h, List.map_cons, ih]
      by_cases hm : k ∈ rest.map Prod.fst
      · rw [if_pos hm, if_pos (by simp [hm])]
      · rw [if_neg hm, if_neg (by simp [hm, Ne.symm h])]
        simp

/-- `groupInsert` preserves distinctness of group keys and the invariant
that every group member normalizes to its group's key. -/
theorem groupInsert_wf (k : String) (rr : Rrset)
    (hk : normalize_zone_name rr.name = k) :
    ∀ m : List (String × List Rrset),
      (m.map Prod.fst).Nodup →
      (∀ p ∈ m, ∀ r ∈ p.2, normalize_zone_name r.name = p.1) →
      ((groupInsert k rr m).map Prod.fst).Nodup
      ∧ ∀ p ∈ groupInsert k rr m, ∀ r ∈ p.2,
          normalize_zone_name r.name = p.1 := by
  intro m
  induction m with
  | nil =>
    intro _ _
    refine ⟨by simp [groupInsert], ?_⟩
    intro p hp r hr
    simp [groupInsert] at hp
    subst hp
    simp at hr
    simp [hr, hk]
  | cons q rest ih =>
    intro hnd hmem
    obtain ⟨k', g⟩ := q
    simp only [List.map_cons, List.nodup_cons] at hnd
    by_cases h : k' = k
    · have hkeys : (groupInsert k rr ((k', g) :: rest)).map Prod.fst
          = k' :: rest.map Prod.fst := by
        simp [groupInsert, h]
      refine ⟨by rw [hkeys]; exact List.nodup_cons.mpr ⟨hnd.1, hnd.2⟩, ?_⟩
      intro p hp r hr
      simp only [groupInsert, if_pos h] at hp
      rcases List.mem_cons.mp hp with hp | hp
      · subst hp
        simp only at hr
        rcases List.mem_append.mp hr with hr | hr
        · exact hmem (k', g) (by simp) r hr
        · simp at hr
          subst hr
          simp [hk, h]
      · exact hmem p (by simp [hp]) r hr
    · have ihr := ih hnd.2
        (fun p hp r hr => hmem p (by simp [hp]) r hr)
      refine ⟨?_, ?_⟩
      · simp only [groupInsert, if_neg h, List.map_cons, List.nodup_cons]
        refine ⟨?_, ihr.1⟩
        rw [groupInsert_keys]
        split
        · exact hnd.1
        · simp only [List.mem_append]
          rintro (hc | hc)
          · exact hnd.1 hc
          · simp at hc
            exact h hc
      · intro p hp r hr
        simp only [groupInsert, if_neg h] at hp
        rcases List.mem_cons.mp hp with hp | hp
        · subst hp
          exact hmem (k', g) (by simp) r hr
        · exact ihr.2 p hp r hr

/-- After inserting, the element is in some group, and previous members
remain in some group. -/
theorem groupInsert_mem (k : String) (rr x : Rrset) :
    ∀ m : List (String × List Rrset),
      ((∃ p ∈ m, x ∈ p.2) ∨ x = rr) →
      ∃ p ∈ groupInsert k rr m, x ∈ p.2 := by
  intro m
  induction m with
  | nil =>
    rintro (⟨p, hp, _⟩ | hx)
    · simp at hp
    · exact ⟨(k, [rr]), by simp [groupInsert], by simp [hx]⟩
  | cons q rest ih =>
    obtain ⟨k', g⟩ := q
    intro hx
    by_cases h : k' = k
    · simp only [groupInsert, if_pos h]
      rcases hx with ⟨p, hp, hxp⟩ | hx
      · rcases List.mem_cons.mp hp with hp | hp
        · subst hp
          exact ⟨(k', g ++ [rr]), by simp, by simp [hxp]⟩
        · exact ⟨p, by simp [hp], hxp⟩
      · exact ⟨(k', g ++ [rr]), by simp, by simp [hx]⟩
    · simp only [groupInsert, if_neg h]
      rcases hx with ⟨p, hp, hxp⟩ | hx
      · rcases List.mem_cons.mp hp with hp | hp
        · subst hp
          exact ⟨(k', g), by simp, hxp⟩
        · obtain ⟨p', hp', hxp'⟩ := ih (Or.inl ⟨p, hp, hxp⟩)
          exact ⟨p', by simp [hp'], hxp'⟩
      · obtain ⟨p', hp', hxp'⟩ := ih (Or.inr hx)
        exact ⟨p', by simp [hp'], hxp'⟩

/-- The grouping pass keeps its invariants over any well-formed
accumulator. -/
theorem foldl_groupInsert_wf :
    ∀ (l : List Rrset) (m : List (String × List Rrset)),
      (m.map Prod.fst).Nodup →
      (∀ p ∈ m, ∀ r ∈ p.2, normalize_zone_name r.name = p.1) →
      ((l.foldl (fun acc rr =>
          groupInsert (normalize_zone_name rr.name) rr acc) m).map
            Prod.fst).Nodup
      ∧ ∀ p ∈ l.foldl (fun acc rr =>
            groupInsert (normalize_zone_name rr.name) rr acc) m,
          ∀ r ∈ p.2, normalize_zone_name r.name = p.1 := by
  intro l
  induction l with
  | nil => intro m h1 h2; exact ⟨h1, h2⟩
  | cons rr rest ih =>
    intro m h1 h2
    have step := groupInsert_wf (normalize_zone_name rr.name) rr rfl m h1 h2
    exact ih _ step.1 step.2

/-- Every input rrset ends up in some group. -/
theorem foldl_groupInsert_mem :
    ∀ (l : List Rrset) (m : List (String × List Rrset)) (x : Rrset),
      ((∃ p ∈ m, x ∈ p.2) ∨ x ∈ l) →
      ∃ p ∈ l.foldl (fun acc rr =>
          groupInsert (normalize_zone_name rr.name) rr acc) m, x ∈ p.2 := by
  intro l
  induction l with
  | nil =>
    rintro m x (hx | hx)
    · exact hx
    · simp at hx
  | cons rr rest ih =>
    rintro m x (hx | hx)
    · exact ih _ x (Or.inl (groupInsert_mem _ rr x m (Or.inl hx)))
    · rcases List.mem_cons.mp hx with hx | hx
      · exact ih _ x (Or.inl (groupInsert_mem _ rr x m (Or.inr hx)))
      · exact ih _ x (Or.inr hx)

/-- The groups of `rrsetsByName` have distinct keys and each member
normalizes to its group key. -/
theorem rrsetsByName_wf (l : List Rrset) :
    ((rrsetsByName l).map Prod.fst).Nodup
    ∧ ∀ p ∈ rrsetsByName l, ∀ r ∈ p.2,
        normalize_zone_name r.name = p.1 :=
  foldl_groupInsert_wf l [] (by simp) (by simp)

/-- Every rrset of the input list belongs to some group of
`rrsetsByName`. -/
theorem rrsetsByName_mem (l : List Rrset) (x : Rrset) (hx : x ∈ l) :
    ∃ p ∈ rrsetsByName l, x ∈ p.2 :=
  foldl_groupInsert_mem l [] x (Or.inr hx)

/-- In a list of pairs with distinct keys, a key determines its value. -/
theorem nodup_keys_value_eq {α β : Type} [DecidableEq α]
    (m : List (α × β)) (h : (m.map Prod.fst).Nodup) (k : α) (g₁ g₂ : β)
    (h₁ : (k, g₁) ∈ m) (h₂ : (k, g₂) ∈ m) : g₁ = g₂ := by
  induction m with
  | nil => simp at h₁
  | cons q rest ih =>
    simp only [List.map_cons, List.nodup_cons] at h
    rcases List.mem_cons.mp h₁ with e₁ | e₁ <;>
      rcases List.mem_cons.mp h₂ with e₂ | e₂
    · exact congrArg Prod.snd (e₁.trans e₂.symm)
    · have hk : q.1 = k := by rw [← e₁]
      exact absurd (List.mem_map.mpr ⟨(k, g₂), e₂, by rw [hk]⟩) h.1
    · have hk : q.1 = k := by rw [← e₂]
      exact absurd (List.mem_map.mpr ⟨(k, g₁), e₁, by rw [hk]⟩) h.1
    · exact ih h.2 e₁ e₂

/-- Record trimming preserves names and types, and fixes non-CNAME
rrsets. -/
theorem trimDoubleCnames_shape (d : Bool) (g : List Rrset) :
    (∀ x ∈ trimDoubleCnames d g,
      ∃ y ∈ g, x.name = y.name ∧ x.type = y.type)
    ∧ ∀ y ∈ g, ¬ y.type = "CNAME" → y ∈ trimDoubleCnames d g := by
  constructor
  · intro x hx
    unfold trimDoubleCnames at hx
    split at hx
    · rw [List.mem_map] at hx
      obtain ⟨y, hy, hxy⟩ := hx
      refine ⟨y, hy, ?_⟩
      subst hxy
      split <;> simp
    · exact ⟨x, hx, rfl, rfl⟩
  · intro y hy hcn
    unfold trimDoubleCnames
    split
    · exact List.mem_map.mpr ⟨y, hy, if_neg fun hh => hcn hh.1⟩
    · exact hy

/-- `processGroup` with its local bindings expanded. -/
theorem processGroup_eq (d : Bool) (apex n : String) (g : List Rrset) :
    processGroup d apex n g
      = (if ((trimDoubleCnames d g).filter fun rr =>
            rr.type = "CNAME").isEmpty then trimDoubleCnames d g
        else if n = apex then
          (trimDoubleCnames d g).filter fun rr => ¬ rr.type = "CNAME"
        else if ((trimDoubleCnames d g).filter fun rr =>
            rr.type = "CNAME").length < (trimDoubleCnames d g).length then
          (trimDoubleCnames d g).filter fun rr => rr.type = "CNAME"
        else trimDoubleCnames d g) := rfl

/-- The shape of one processed group: at the apex nothing is CNAME; away
from the apex the kept rrsets are either CNAME-free or all CNAME. -/
theorem processGroup_shape (d : Bool) (apex n : String) (g : List Rrset) :
    (n = apex → ∀ x ∈ processGroup d apex n g, ¬ x.type = "CNAME")
    ∧ (¬ n = apex →
        (∀ x ∈ processGroup d apex n g, ¬ x.type = "CNAME")
        ∨ ∀ x ∈ processGroup d apex n g, x.type = "CNAME") := by
  rw [processGroup_eq]
  set g' := trimDoubleCnames d g with hg'
  set cn := g'.filter (fun rr => (rr.type = "CNAME" : Bool)) with hcn
  by_cases hc : cn.isEmpty
  · have hnil : cn = [] := List.isEmpty_iff.mp hc
    rw [hcn] at hnil
    have hnone : ∀ x ∈ g', ¬ x.type = "CNAME" := fun x hx => by
      simpa using List.filter_eq_nil_iff.mp hnil x hx
    rw [if_pos hc]
    exact ⟨fun _ => hnone, fun _ => Or.inl hnone⟩
  · rw [if_neg hc]
    constructor
    · intro hn
      rw [if_pos hn]
      intro x hx
      simpa using (List.mem_filter.mp hx).2
    · intro hn
      rw [if_neg hn]
      by_cases hlen : cn.length < g'.length
      · rw [if_pos hlen]
        refine Or.inr fun x hx => ?_
        rw [hcn] at hx
        simpa using (List.mem_filter.mp hx).2
      · rw [if_neg hlen]
        refine Or.inr fun x hx => ?_
        have hle : cn.length ≤ g'.length := by
          rw [hcn]
          exact List.length_filter_le _ _
        have heq : cn.length = g'.length := by omega
        rw [hcn] at heq
        simpa using List.filter_length_eq_length.mp heq x hx

/-- A processed group's members all come from the trimmed group (same
name and type as some original member). -/
theorem processGroup_mem (d : Bool) (apex n : String) (g : List Rrset)
    (x : Rrset) (hx : x ∈ processGroup d apex n g) :
    ∃ y ∈ g, x.name = y.name ∧ x.type = y.type := by
  rw [processGroup_eq] at hx
  have sub : x ∈ trimDoubleCnames d g := by
    split at hx
    · exact hx
    · split at hx
      · exact (List.mem_filter.mp hx).1
      · split at hx
        · exact (List.mem_filter.mp hx).1
        · exact hx
  exact (trimDoubleCnames_shape d g).1 x sub

/-- Non-CNAME rrsets at the apex survive their group's processing. -/
theorem processGroup_apex_keep (d : Bool) (apex : String) (g : List Rrset)
    (x : Rrset) (hx : x ∈ g) (hcn : ¬ x.type = "CNAME") :
    x ∈ processGroup d apex apex g := by
  rw [processGroup_eq]
  have hx' : x ∈ trimDoubleCnames d g :=
    (trimDoubleCnames_shape d g).2 x hx hcn
  split
  · exact hx'
  · rw [if_pos rfl]
    exact List.mem_filter.mpr ⟨hx', by simpa using hcn⟩

/-- `dictInsert` preserves distinctness of keys and the invariant that
every stored key is its value's rrset key. -/
theorem dictInsert_wf (k : RKey) (v : Rrset) (hk : k = rrsetKey v)
    (m : RMap) (hnd : (m.map Prod.fst).Nodup)
    (hkey : ∀ p ∈ m, p.1 = rrsetKey p.2) :
    ((dictInsert k v m).map Prod.fst).Nodup
    ∧ ∀ p ∈ dictInsert k v m, p.1 = rrsetKey p.2 := by
  unfold dictInsert
  split
  · constructor
    · have : (m.map fun p => if p.1 = k then (k, v) else p).map Prod.fst
          = m.map Prod.fst := by
        rw [List.map_map]
        refine List.map_congr_left fun p _ => ?_
        by_cases h : p.1 = k
        · simp [h]
        · simp [h]
      rw [this]
      exact hnd
    · intro p hp
      obtain ⟨q, hq, hpq⟩ := List.mem_map.mp hp
      by_cases h : q.1 = k
      · rw [if_pos h] at hpq
        rw [← hpq, hk]
      · rw [if_neg h] at hpq
        rw [← hpq]
        exact hkey q hq
  · rename_i hany
    constructor
    · rw [List.map_append]
      rw [List.nodup_append]
      refine ⟨hnd, by simp, ?_⟩
      intro a ha
      simp only [List.map_cons, List.map_nil, List.mem_cons,
        List.not_mem_nil, or_false, List.mem_singleton]
      intro hak
      rw [List.any_eq_true] at hany
      obtain ⟨q, hq, hqk⟩ := List.mem_map.mp ha
      exact hany ⟨q, hq, by simp [hqk, hak]⟩
    · intro p hp
      rcases List.mem_append.mp hp with hp | hp
      · exact hkey p hp
      · simp at hp
        rw [hp, hk]

/-- The rrset map keeps distinct keys, each equal to its value's rrset
key. -/
theorem rrsetMap_wf (l : List Rrset) :
    ((rrsetMap l).map Prod.fst).Nodup
    ∧ ∀ p ∈ rrsetMap l, p.1 = rrsetKey p.2 := by
  suffices h : ∀ (l : List Rrset) (m : RMap),
      (m.map Prod.fst).Nodup → (∀ p ∈ m, p.1 = rrsetKey p.2) →
      (((l.foldl (fun m rr => dictInsert (rrsetKey rr) rr m) m).map
          Prod.fst).Nodup
        ∧ ∀ p ∈ l.foldl (fun m rr => dictInsert (rrsetKey rr) rr m) m,
            p.1 = rrsetKey p.2) by
    exact h l [] (by simp) (by simp)
  intro l
  induction l with
  | nil => intro m h1 h2; exact ⟨h1, h2⟩
  | cons rr rest ih =>
    intro m h1 h2
    have step := dictInsert_wf (rrsetKey rr) rr rfl m h1 h2
    exact ih _ step.1 step.2

/-- With distinct keys, lookup agrees with membership. -/
theorem dictLookup_eq_some_iff (m : RMap)
    (hnd : (m.map Prod.fst).Nodup) (k : RKey) (v : Rrset) :
    dictLookup k m = some v ↔ (k, v) ∈ m := by
  induction m with
  | nil => simp [dictLookup]
  | cons q rest ih =>
    obtain ⟨qk, qv⟩ := q
    simp only [List.map_cons, List.nodup_cons] at hnd
    by_cases hq : qk = k
    · have hfind : dictLookup k ((qk, qv) :: rest) = some qv := by
        simp [dictLookup, List.find?_cons, hq]
      rw [hfind]
      constructor
      · intro hv
        rw [List.mem_cons]
        exact Or.inl (by rw [← hq, Option.some_inj.mp hv])
      · intro hm
        rcases List.mem_cons.mp hm with he | hm
        · rw [(Prod.mk.injEq .. ▸ he : k = qk ∧ v = qv).2]
        · exact absurd (List.mem_map.mpr ⟨(k, v), hm, hq.symm⟩) hnd.1
    · have hfind : dictLookup k ((qk, qv) :: rest) = dictLookup k rest := by
        simp [dictLookup, List.find?_cons, hq]
      rw [hfind, ih hnd.2]
      constructor
      · exact fun h => List.mem_cons_of_mem _ h
      · intro hm
        rcases List.mem_cons.mp hm with he | hm
        · exact absurd ((Prod.mk.injEq .. ▸ he : k = qk ∧ v = qv).1.symm) hq
        · exact hm

/-- Lookup misses exactly the keys absent from the map. -/
theorem dictLookup_eq_none_iff (m : RMap) (k : RKey) :
    dictLookup k m = none ↔ k ∉ m.map Prod.fst := by
  unfold dictLookup
  rw [Option.map_eq_none', List.find?_eq_none]
  constructor
  · intro h hk
    obtain ⟨p, hp, hpk⟩ := List.mem_map.mp hk
    have hnp : ¬ (decide (p.1 = k) = true) := h p hp
    rw [decide_eq_true_eq] at hnp
    exact hnp hpk
  · intro h p hp
    simp only [decide_eq_true_eq]
    intro hpk
    exact h (List.mem_map.mpr ⟨p, hp, hpk⟩)

/-- The key of an emitted change operation is the rrset's key. -/
theorem opKey_rrsetChange (ct : String) (rr : Rrset) :
    opKey (rrsetChange ct rr) = rrsetKey rr := rfl

/-- Preserving the target serial never changes a rrset's key. -/
theorem rrsetKey_preserve (s t : Rrset) :
    rrsetKey (preserveTargetSoaSerial s t) = rrsetKey s := by
  unfold preserveTargetSoaSerial
  cases t.records with
  | nil => rfl
  | cons r0 rest =>
    dsimp only
    split <;> rfl

/-- Semantic rrset equality is reflexive. -/
theorem rrsetEqual_refl (ig : Bool) (rr : Rrset) :
    rrsetEqual ig rr rr = true := by
  simp [rrsetEqual]

/-- Keys of a filtered-and-mapped change list form a sublist of the
map's keys. -/
theorem filter_change_keys_sublist (l : RMap) (c : RKey × Rrset → Bool)
    (g : RKey × Rrset → ChangeOp) (hg : ∀ p ∈ l, opKey (g p) = p.1) :
    (((l.filter c).map g).map opKey).Sublist (l.map Prod.fst) := by
  induction l with
  | nil => simp
  | cons p rest ih =>
    have ih' := ih fun q hq => hg q (List.mem_cons_of_mem p hq)
    by_cases hc : c p
    · simpa [List.filter_cons, hc, hg p (by simp)] using
        List.Sublist.cons₂ p.1 ih'
    · simpa [List.filter_cons, hc] using List.Sublist.cons p.1 ih'

/-- Keys of a `filterMap`-produced change list form a sublist of the
map's keys. -/
theorem filterMap_change_keys_sublist (l : RMap)
    (f : RKey × Rrset → Option ChangeOp)
    (hf : ∀ p ∈ l, ∀ op, f p = some op → opKey op = p.1) :
    ((l.filterMap f).map opKey).Sublist (l.map Prod.fst) := by
  induction l with
  | nil => simp
  | cons p rest ih =>
    have ih' := ih fun q hq => hf q (List.mem_cons_of_mem p hq)
    cases hfp : f p with
    | none => simpa [List.filterMap_cons, hfp] using List.Sublist.cons p.1 ih'
    | some op =>
      simpa [List.filterMap_cons, hfp, hf p (by simp) op hfp] using
        List.Sublist.cons₂ p.1 ih'

/-- `dropCnameConflicts` with its local binding expanded. -/
theorem dropCnameConflicts_eq (d : Bool) (rs : List Rrset) (zn : String) :
    dropCnameConflicts d rs zn
      = (rrsetsByName rs).flatMap
          (fun p => processGroup d (normalize_zone_name zn) p.1 p.2) := rfl

/-- **C2.** With `auto_fix_cname_conflicts` enabled, the sanitized zone's
rrsets contain no CNAME at the apex (while every non-CNAME apex rrset of
the sanitized input is kept), and at any name, if one kept rrset is a
CNAME then every kept rrset at that name is a CNAME — so a non-apex name
either holds a CNAME and nothing else, or holds no CNAME at all. -/
theorem cname_policy_spec (cfg : MigratorConfig)
    (hfix : cfg.auto_fix_cname_conflicts = true) (z : Zone) :
    (∀ rr ∈ (sanitizeZone cfg z).rrsets,
        normalize_zone_name rr.name = (sanitizeZone cfg z).name →
        ¬ rr.type = "CNAME")
    ∧ (∀ rr₁ ∈ (sanitizeZone cfg z).rrsets,
        ∀ rr₂ ∈ (sanitizeZone cfg z).rrsets,
        normalize_zone_name rr₁.name = normalize_zone_name rr₂.name →
        rr₁.type = "CNAME" → rr₂.type = "CNAME")
    ∧ (∀ rr ∈ sanitizeRrsets z.rrsets, ¬ rr.type = "CNAME" →
        normalize_zone_name rr.name = normalize_zone_name z.name →
        rr ∈ (sanitizeZone cfg z).rrsets) := by
  have hzn : (sanitizeZone cfg z).name = normalize_zone_name z.name := rfl
  have hzr : (sanitizeZone cfg z).rrsets
      = dropCnameConflicts cfg.auto_fix_double_cname_conflicts
          (sanitizeRrsets z.rrsets) (normalize_zone_name z.name) := by
    simp [sanitizeZone, hfix]
  set d := cfg.auto_fix_double_cname_conflicts
  set rs := sanitizeRrsets z.rrsets with hrs
  set apex' := normalize_zone_name (normalize_zone_name z.name) with hapex'
  have hapex : apex' = normalize_zone_name z.name :=
    normalize_zone_name_idem z.name
  have hmem : ∀ x ∈ (sanitizeZone cfg z).rrsets,
      ∃ p ∈ rrsetsByName rs, x ∈ processGroup d apex' p.1 p.2
        ∧ normalize_zone_name x.name = p.1 := by
    intro x hx
    rw [hzr, dropCnameConflicts_eq] at hx
    obtain ⟨p, hp, hxp⟩ := List.mem_flatMap.mp hx
    obtain ⟨y, hy, hxy, _⟩ := processGroup_mem d apex' p.1 p.2 x hxp
    exact ⟨p, hp, hxp,
      by rw [hxy]; exact (rrsetsByName_wf rs).2 p hp y hy⟩
  refine ⟨?_, ?_, ?_⟩
  · intro rr hrr hap
    obtain ⟨p, hp, hxp, hkey⟩ := hmem rr hrr
    have hpa : p.1 = apex' := by rw [← hkey, hap, hzn, hapex]
    exact (processGroup_shape d apex' p.1 p.2).1 hpa rr hxp
  · intro rr₁ h₁ rr₂ h₂ hnames hc₁
    obtain ⟨p₁, hp₁, hx₁, hk₁⟩ := hmem rr₁ h₁
    obtain ⟨p₂, hp₂, hx₂, hk₂⟩ := hmem rr₂ h₂
    have hkk : p₁.1 = p₂.1 := by rw [← hk₁, ← hk₂, hnames]
    have hgg : p₁.2 = p₂.2 := by
      refine nodup_keys_value_eq (rrsetsByName rs) (rrsetsByName_wf rs).1
        p₁.1 p₁.2 p₂.2 (by simpa using hp₁) ?_
      rw [hkk]
      simpa using hp₂
    rw [← hkk, ← hgg] at hx₂
    by_cases hpa : p₁.1 = apex'
    · exact absurd hc₁ ((processGroup_shape d apex' p₁.1 p₁.2).1 hpa rr₁ hx₁)
    · rcases (processGroup_shape d apex' p₁.1 p₁.2).2 hpa with hall | hall
      · exact absurd hc₁ (hall rr₁ hx₁)
      · exact hall rr₂ hx₂
  · intro rr hrr hcn hap
    obtain ⟨p, hp, hrp⟩ := rrsetsByName_mem rs rr hrr
    have hpa : p.1 = apex' := by
      rw [← (rrsetsByName_wf rs).2 p hp rr hrp, hap, hapex]
    rw [hzr, dropCnameConflicts_eq]
    refine List.mem_flatMap.mpr ⟨p, hp, ?_⟩
    rw [hpa]
    exact processGroup_apex_keep d apex' p.2 rr hrp hcn

/-- **C1.** Viewing sanitized source and target as maps `S`, `T` from
`(normalized name, type)` to rrset, `_build_changes` emits exactly one
DELETE per key of `T \ S`, then one REPLACE per common key with
semantically unequal rrsets, then one REPLACE per key of `S \ T` — in
that order — so every `(name, type)` key occurs in at most one change
operation, and identical rrset lists produce an empty change set. -/
theorem diff_change_set_spec (ig : Bool) (S T : Zone) :
    ∃ dels upds crts,
      buildChanges ig S T = dels ++ upds ++ crts
      ∧ (∀ op ∈ dels, op.changetype = "DELETE"
          ∧ dictLookup (opKey op) (rrsetMap S.rrsets) = none
          ∧ ∃ t, dictLookup (opKey op) (rrsetMap T.rrsets) = some t)
      ∧ (∀ k t, dictLookup k (rrsetMap T.rrsets) = some t →
          dictLookup k (rrsetMap S.rrsets) = none →
          ∃ op ∈ dels, opKey op = k)
      ∧ (∀ op ∈ upds, op.changetype = "REPLACE"
          ∧ ∃ s t, dictLookup (opKey op) (rrsetMap S.rrsets) = some s
            ∧ dictLookup (opKey op) (rrsetMap T.rrsets) = some t
            ∧ rrsetEqual ig s t = false)
      ∧ (∀ k s t, dictLookup k (rrsetMap S.rrsets) = some s →
          dictLookup k (rrsetMap T.rrsets) = some t →
          rrsetEqual ig s t = false →
          ∃ op ∈ upds, opKey op = k)
      ∧ (∀ op ∈ crts, op.changetype = "REPLACE"
          ∧ (∃ s, dictLookup (opKey op) (rrsetMap S.rrsets) = some s)
          ∧ dictLookup (opKey op) (rrsetMap T.rrsets) = none)
      ∧ (∀ k s, dictLookup k (rrsetMap S.rrsets) = some s →
          dictLookup k (rrsetMap T.rrsets) = none →
          ∃ op ∈ crts, opKey op = k)
      ∧ ((buildChanges ig S T).map opKey).Nodup
      ∧ (S.rrsets = T.rrsets → buildChanges ig S T = []) := by
  obtain ⟨hsnd, hskey⟩ := rrsetMap_wf S.rrsets
  obtain ⟨htnd, htkey⟩ := rrsetMap_wf T.rrsets
  set dels := ((rrsetMap T.rrsets).filter fun p =>
      (dictLookup p.1 (rrsetMap S.rrsets)).isNone).map
      (fun p => rrsetChange "DELETE" p.2) with hdels
  set fupd := fun p : RKey × Rrset =>
    match dictLookup p.1 (rrsetMap T.rrsets) with
    | none => none
    | some trr =>
      if rrsetEqual ig p.2 trr then none
      else
        some (rrsetChange "REPLACE"
          (if ig ∧ p.2.type = "SOA" then preserveTargetSoaSerial p.2 trr
           else p.2)) with hfupd
  set upds := (rrsetMap S.rrsets).filterMap fupd with hupds
  set crts := ((rrsetMap S.rrsets).filter fun p =>
      (dictLookup p.1 (rrsetMap T.rrsets)).isNone).map
      (fun p => rrsetChange "REPLACE" p.2) with hcrts
  have hbuild : buildChanges ig S T = dels ++ upds ++ crts := rfl
  have hds : ∀ op ∈ dels, op.changetype = "DELETE"
      ∧ dictLookup (opKey op) (rrsetMap S.rrsets) = none
      ∧ ∃ t, dictLookup (opKey op) (rrsetMap T.rrsets) = some t := by
    intro op hop
    obtain ⟨p, hpf, hpe⟩ := List.mem_map.mp hop
    obtain ⟨hpmem, hpcond⟩ := List.mem_filter.mp hpf
    have hkey : opKey op = p.1 := by
      rw [← hpe, opKey_rrsetChange]
      exact (htkey p hpmem).symm
    refine ⟨by rw [← hpe]; rfl, ?_, ?_⟩
    · rw [hkey]
      exact Option.isNone_iff_eq_none.mp hpcond
    · rw [hkey]
      exact ⟨p.2, (dictLookup_eq_some_iff _ htnd _ _).mpr
        (by simpa using hpmem)⟩
  have hdc : ∀ k t, dictLookup k (rrsetMap T.rrsets) = some t →
      dictLookup k (rrsetMap S.rrsets) = none →
      ∃ op ∈ dels, opKey op = k := by
    intro k t hkt hks
    have hmem : (k, t) ∈ rrsetMap T.rrsets :=
      (dictLookup_eq_some_iff _ htnd _ _).mp hkt
    refine ⟨rrsetChange "DELETE" t,
      List.mem_map.mpr ⟨(k, t), List.mem_filter.mpr ⟨hmem, ?_⟩, rfl⟩, ?_⟩
    · simp [hks]
    · rw [opKey_rrsetChange]
      exact (htkey (k, t) hmem).symm
  have hfupd_some : ∀ p ∈ rrsetMap S.rrsets, ∀ op, fupd p = some op →
      opKey op = p.1 ∧ op.changetype = "REPLACE"
      ∧ ∃ trr, dictLookup p.1 (rrsetMap T.rrsets) = some trr
        ∧ rrsetEqual ig p.2 trr = false := by
    intro p hpmem op hpf
    have hpf' : (match dictLookup p.1 (rrsetMap T.rrsets) with
      | none => none
      | some trr =>
        if rrsetEqual ig p.2 trr then none
        else
          some (rrsetChange "REPLACE"
            (if ig ∧ p.2.type = "SOA" then preserveTargetSoaSerial p.2 trr
             else p.2))) = some op := hpf
    clear hpf
    cases hlt : dictLookup p.1 (rrsetMap T.rrsets) with
    | none => rw [hlt] at hpf'; simp at hpf'
    | some trr =>
      rw [hlt] at hpf'
      dsimp only at hpf'
      by_cases heq : rrsetEqual ig p.2 trr = true
      · rw [if_pos heq] at hpf'
        simp at hpf'
      · rw [if_neg heq] at hpf'
        have hop' : op = rrsetChange "REPLACE"
            (if ig ∧ p.2.type = "SOA" then preserveTargetSoaSerial p.2 trr
             else p.2) := (Option.some_inj.mp hpf').symm
      -- the emitted key survives the optional serial rewrite
        refine ⟨?_, by rw [hop']; rfl, trr, rfl, ?_⟩
        · rw [hop', opKey_rrsetChange]
          split
          · rw [rrsetKey_preserve]
            exact (hskey p hpmem).symm
          · exact (hskey p hpmem).symm
        · revert heq
          cases rrsetEqual ig p.2 trr <;> simp
  have hus : ∀ op ∈ upds, op.changetype = "REPLACE"
      ∧ ∃ s t, dictLookup (opKey op) (rrsetMap S.rrsets) = some s
        ∧ dictLookup (opKey op) (rrsetMap T.rrsets) = some t
        ∧ rrsetEqual ig s t = false := by
    intro op hop
    obtain ⟨p, hpmem, hpf⟩ := List.mem_filterMap.mp hop
    obtain ⟨hkey, hct, trr, hlt, hne⟩ := hfupd_some p hpmem op hpf
    refine ⟨hct, p.2, trr, ?_, ?_, hne⟩
    · rw [hkey]
      exact (dictLookup_eq_some_iff _ hsnd _ _).mpr (by simpa using hpmem)
    · rw [hkey]
      exact hlt
  have huc : ∀ k s t, dictLookup k (rrsetMap S.rrsets) = some s →
      dictLookup k (rrsetMap T.rrsets) = some t →
      rrsetEqual ig s t = false →
      ∃ op ∈ upds, opKey op = k := by
    intro k s t hks hkt hne
    have hmem : (k, s) ∈ rrsetMap S.rrsets :=
      (dictLookup_eq_some_iff _ hsnd _ _).mp hks
    have hf : fupd (k, s) = some (rrsetChange "REPLACE"
        (if ig ∧ s.type = "SOA" then preserveTargetSoaSerial s t else s)) := by
      rw [hfupd]
      show (match dictLookup k (rrsetMap T.rrsets) with
        | none => none
        | some trr =>
          if rrsetEqual ig s trr then none
          else
            some (rrsetChange "REPLACE"
              (if ig ∧ s.type = "SOA" then preserveTargetSoaSerial s trr
               else s))) = _
      rw [hkt]
      dsimp only
      rw [if_neg (by rw [hne]; exact Bool.false_ne_true)]
    refine ⟨_, List.mem_filterMap.mpr ⟨(k, s), hmem, hf⟩, ?_⟩
    rw [opKey_rrsetChange]
    split
    · rw [rrsetKey_preserve]
      exact (hskey (k, s) hmem).symm
    · exact (hskey (k, s) hmem).symm
  have hcs : ∀ op ∈ crts, op.changetype = "REPLACE"
      ∧ (∃ s, dictLookup (opKey op) (rrsetMap S.rrsets) = some s)
      ∧ dictLookup (opKey op) (rrsetMap T.rrsets) = none := by
    intro op hop
    obtain ⟨p, hpf, hpe⟩ := List.mem_map.mp hop
    obtain ⟨hpmem, hpcond⟩ := List.mem_filter.mp hpf
    have hkey : opKey op = p.1 := by
      rw [← hpe, opKey_rrsetChange]
      exact (hskey p hpmem).symm
    refine ⟨by rw [← hpe]; rfl, ?_, ?_⟩
    · rw [hkey]
      exact ⟨p.2, (dictLookup_eq_some_iff _ hsnd _ _).mpr
        (by simpa using hpmem)⟩
    · rw [hkey]
      exact Option.isNone_iff_eq_none.mp hpcond
  have hcc : ∀ k s, dictLookup k (rrsetMap S.rrsets) = some s →
      dictLookup k (rrsetMap T.rrsets) = none →
      ∃ op ∈ crts, opKey op = k := by
    intro k s hks hkt
    have hmem : (k, s) ∈ rrsetMap S.rrsets :=
      (dictLookup_eq_some_iff _ hsnd _ _).mp hks
    refine ⟨rrsetChange "REPLACE" s,
      List.mem_map.mpr ⟨(k, s), List.mem_filter.mpr ⟨hmem, ?_⟩, rfl⟩, ?_⟩
    · simp [hkt]
    · rw [opKey_rrsetChange]
      exact (hskey (k, s) hmem).symm
  have hnodup : ((buildChanges ig S T).map opKey).Nodup := by
    rw [hbuild, List.map_append, List.map_append, List.nodup_append,
      List.nodup_append]
    have hdsub : (dels.map opKey).Sublist
        ((rrsetMap T.rrsets).map Prod.fst) := by
      rw [hdels]
      exact filter_change_keys_sublist _ _ _
        (fun p hp => by rw [opKey_rrsetChange]; exact (htkey p hp).symm)
    have husub : (upds.map opKey).Sublist
        ((rrsetMap S.rrsets).map Prod.fst) := by
      rw [hupds]
      exact filterMap_change_keys_sublist _ _
        (fun p hp op hf => (hfupd_some p hp op hf).1)
    have hcsub : (crts.map opKey).Sublist
        ((rrsetMap S.rrsets).map Prod.fst) := by
      rw [hcrts]
      exact filter_change_keys_sublist _ _ _
        (fun p hp => by rw [opKey_rrsetChange]; exact (hskey p hp).symm)
    refine ⟨⟨hdsub.nodup htnd, husub.nodup hsnd, ?_⟩, hcsub.nodup hsnd, ?_⟩
    · intro a had hau
      obtain ⟨opd, hopd, hka⟩ := List.mem_map.mp had
      obtain ⟨opu, hopu, hkb⟩ := List.mem_map.mp hau
      obtain ⟨_, hdn, _⟩ := hds opd hopd
      obtain ⟨_, s, _, hsome, _⟩ := hus opu hopu
      rw [hka] at hdn
      rw [hkb] at hsome
      rw [hdn] at hsome
      exact Option.noConfusion hsome
    · intro a hadu hac
      obtain ⟨opc, hopc, hkc⟩ := List.mem_map.mp hac
      obtain ⟨_, ⟨s, hsome⟩, _⟩ := hcs opc hopc
      rw [hkc] at hsome
      rcases List.mem_append.mp hadu with had | hau
      · obtain ⟨opd, hopd, hka⟩ := List.mem_map.mp had
        obtain ⟨_, hdn, _⟩ := hds opd hopd
        rw [hka] at hdn
        rw [hdn] at hsome
        exact Option.noConfusion hsome
      · obtain ⟨opu, hopu, hkb⟩ := List.mem_map.mp hau
        obtain ⟨_, _, t, _, hsome', _⟩ := hus opu hopu
        obtain ⟨_, _, hcn⟩ := hcs opc hopc
        rw [hkb] at hsome'
        rw [hkc] at hcn
        rw [hcn] at hsome'
        exact Option.noConfusion hsome'
  have hempty : S.rrsets = T.rrsets → buildChanges ig S T = [] := by
    intro hst
    have hmapeq : rrsetMap S.rrsets = rrsetMap T.rrsets := by rw [hst]
    rw [hbuild]
    have hd0 : dels = [] := by
      rw [hdels]
      have : ((rrsetMap T.rrsets).filter fun p =>
          (dictLookup p.1 (rrsetMap S.rrsets)).isNone) = [] := by
        rw [List.filter_eq_nil_iff]
        intro p hp
        have : dictLookup p.1 (rrsetMap S.rrsets) = some p.2 := by
          rw [hmapeq]
          exact (dictLookup_eq_some_iff _ htnd _ _).mpr (by simpa using hp)
        simp [this]
      rw [this]
      rfl
    have hu0 : upds = [] := by
      rw [hupds, List.filterMap_eq_nil_iff]
      intro p hp
      have hlt : dictLookup p.1 (rrsetMap T.rrsets) = some p.2 := by
        rw [← hmapeq]
        exact (dictLookup_eq_some_iff _ hsnd _ _).mpr (by simpa using hp)
      rw [hfupd]
      show (match dictLookup p.1 (rrsetMap T.rrsets) with
        | none => none
        | some trr =>
          if rrsetEqual ig p.2 trr then none
          else
            some (rrsetChange "REPLACE"
              (if ig ∧ p.2.type = "SOA" then preserveTargetSoaSerial p.2 trr
               else p.2))) = none
      rw [hlt]
      dsimp only
      rw [if_pos (rrsetEqual_refl ig p.2)]
    have hc0 : crts = [] := by
      rw [hcrts]
      have : ((rrsetMap S.rrsets).filter fun p =>
          (dictLookup p.1 (rrsetMap T.rrsets)).isNone) = [] := by
        rw [List.filter_eq_nil_iff]
        intro p hp
        have : dictLookup p.1 (rrsetMap T.rrsets) = some p.2 := by
          rw [← hmapeq]
          exact (dictLookup_eq_some_iff _ hsnd _ _).mpr (by simpa using hp)
        simp [this]
      rw [this]
      rfl
    rw [hd0, hu0, hc0]
    rfl
  exact ⟨dels, upds, crts, hbuild, hds, hdc, hus, huc, hcs, hcc, hnodup,
    hempty⟩

/-- Witness for C1: on identical concrete zones the change set is empty,
and on a target holding an extra TXT rrset a DELETE is emitted under the
TXT key. -/
theorem diff_change_set_spec_witness :
    buildChanges false wZoneS wZoneS = []
    ∧ ∃ op ∈ buildChanges false (sanitizeZone ⟨false, false, false⟩ wZoneS)
        wZoneT, opKey op = ("ex.com.", "TXT") ∧ op.changetype = "DELETE" := by
  constructor
  · obtain ⟨d, u, c, hb, _, _, _, _, _, _, _, he⟩ :=
      diff_change_set_spec false wZoneS wZoneS
    exact he rfl
  · obtain ⟨d, u, c, hb, hds, hdc, _, _, _, _, _, _⟩ :=
      diff_change_set_spec false (sanitizeZone ⟨false, false, false⟩ wZoneS)
        wZoneT
    obtain ⟨op, hop, hk⟩ :=
      hdc ("ex.com.", "TXT") wRrTxt (by decide) (by decide)
    exact ⟨op, by
      rw [hb]
      exact List.mem_append.mpr (Or.inl (List.mem_append.mpr (Or.inl hop))),
      hk, (hds op hop).1⟩

/-- Witness for C2 on a concrete zone with an apex CNAME conflict and a
`www` CNAME conflict, with both auto-fix flags enabled. -/
theorem cname_policy_spec_witness :
    (∀ rr ∈ (sanitizeZone ⟨false, true, true⟩ wCnZone).rrsets,
        normalize_zone_name rr.name
            = (sanitizeZone ⟨false, true, true⟩ wCnZone).name →
        ¬ rr.type = "CNAME")
    ∧ (∀ rr₁ ∈ (sanitizeZone ⟨false, true, true⟩ wCnZone).rrsets,
        ∀ rr₂ ∈ (sanitizeZone ⟨false, true, true⟩ wCnZone).rrsets,
        normalize_zone_name rr₁.name = normalize_zone_name rr₂.name →
        rr₁.type = "CNAME" → rr₂.type = "CNAME")
    ∧ (∀ rr ∈ sanitizeRrsets wCnZone.rrsets, ¬ rr.type = "CNAME" →
        normalize_zone_name rr.name = normalize_zone_name wCnZone.name →
        rr ∈ (sanitizeZone ⟨false, true, true⟩ wCnZone).rrsets) :=
  cname_policy_spec ⟨false, true, true⟩ rfl wCnZone

/-- Witness for C3 on the concrete SOA rrsets `wSoaS`/`wSoaT`, whose
contents differ only in the serial. -/
theorem soa_serial_ignore_spec_witness :
    normalizeRecordContent true "SOA" wSoaContentS
        = normalizeRecordContent true "SOA" wSoaContentT
    ∧ rrsetEqual true wSoaS wSoaT = true
    ∧ List.Forall₂ (fun a b : SRecord =>
        b.content = joinSp ((pyWords a.content).set 2
          ((pyWords (wRec wSoaContentT).content).getD 2 ""))
        ∧ b.disabled = a.disabled ∧ b.priority = a.priority)
      wSoaS.records (preserveTargetSoaSerial wSoaS wSoaT).records :=
  soa_serial_ignore_spec wSoaContentS wSoaContentT wSoaS wSoaT
    (wRec wSoaContentT) [] (by decide) (by decide) (by decide) (by decide)
    (by decide) (by decide)
    (List.Forall₂.cons (by decide) List.Forall₂.nil)
    (by decide) (by decide) (by decide)

end PdnsMigrator
